import Mathlib

set_option maxRecDepth 8000

namespace GridRDF

/-! Shallow embedding of the EMD engine of `gridrdf/earth_mover_distance.py`.
Machine floats are modelled by exact rationals; numpy reductions
(`cumsum`, `max`, `mean`, `sum`) become the corresponding total list
functions, and division by zero follows the rational convention `x / 0 = 0`
(standing in for the fact that numpy returns a non-exceptional value there). -/

/-- Embedding of `np.cumsum` on a 1D array, with an explicit accumulator. -/
def cumsumAux (acc : ℚ) : List ℚ → List ℚ
  | [] => []
  | x :: xs => (acc + x) :: cumsumAux (acc + x) xs

/-- Embedding of `np.cumsum` on a 1D array (`axis=-1` maps this over rows). -/
def cumsum (l : List ℚ) : List ℚ := cumsumAux 0 l

/-- Embedding of `np.max` on a 1D array (total: `0` on the empty list). -/
def npMax (l : List ℚ) : ℚ := l.foldl max (l.headD 0)

/-- Embedding of `np.max` on a 2D array. -/
def npMax2 (g : List (List ℚ)) : ℚ := npMax g.join

/-- Embedding of `np.mean` (total: the empty list yields `0 / 0 = 0`). -/
def npMean (l : List ℚ) : ℚ := l.sum / l.length

/-- Embedding of `np.sum(np.abs(a - b))` for two 1D arrays. -/
def sumAbsDiff (a b : List ℚ) : ℚ := (List.zipWith (fun x y => |x - y|) a b).sum

/-- Embedding of `np.isclose` with its default tolerances `atol = 1e-8` and
`rtol = 1e-5`; the relative part is taken on the second argument, as numpy
does. -/
def npIsClose (x y : ℚ) : Bool :=
  decide (|x - y| ≤ 1 / 100000000 + 1 / 100000 * |y|)

/-- Embedding of `_EMD_cumsum(cumulative_grid1, cumulative_grid2, bin_width,
weights)` (earth_mover_distance.py, lines 617-654): the mean over shells of
`weights * np.sum(np.abs(g1 - g2), axis=-1) / np.max(g1) * bin_width`, with
`weights` defaulting to a vector of ones. -/
def EMD_cumsum (g1 g2 : List (List ℚ)) (binWidth : ℚ)
    (weights : Option (List ℚ)) : ℚ :=
  let w := weights.getD (List.replicate g1.length 1)
  npMean (List.zipWith (fun wj s => wj * s / npMax2 g1 * binWidth) w
    (List.zipWith sumAbsDiff g1 g2))

/-- Embedding of `_emd_cumsum_row(cumsum_grid_array, index, bin_width,
weights)` (lines 549-614): the output row starts as zeros and positions
`j ≥ index` receive the pairwise cumulative-EMD value, whose formula is the
one shared with `_EMD_cumsum`. -/
def emd_cumsum_row (cs : List (List (List ℚ))) (index : ℕ) (bw : ℚ)
    (weights : Option (List ℚ)) : List ℚ :=
  (List.range cs.length).map fun j =>
    if index ≤ j then EMD_cumsum (cs.getD index []) (cs.getD j []) bw weights
    else 0

/-- Embedding of the in-place mirroring statement
`output[i, :i] = output[:i, i]` of `super_fast_EMD_matrix` (line 760):
given the previously written rows `prev` (so `i = prev.length`), entry `q`
of the new row is read back from `prev[q][i]` when `q < i`, and is the
freshly computed entry `row[q]` otherwise. -/
def mirrorRow (prev : List (List ℚ)) (row : List ℚ) : List ℚ :=
  (List.range row.length).map fun q =>
    if q < prev.length then (prev.getD q []).getD prev.length 0
    else row.getD q 0

/-- Embedding of the row loop of `super_fast_EMD_matrix` (lines 757-760):
for each `i` in order, the freshly computed row `_emd_cumsum_row(..., i, ...)`
is written, then its lower-triangle prefix is mirrored from the rows already
stored in the output buffer. -/
def buildRows (cs : List (List (List ℚ))) (bw : ℚ) (w : List ℚ) :
    List (List ℚ) :=
  (List.range cs.length).foldl
    (fun acc i => acc ++ [mirrorRow acc (emd_cumsum_row cs i bw (some w))]) []

/-- Failure modes of `super_fast_EMD_matrix` (its three `assert` statements,
in source order). -/
inductive EMDMatrixError where
  | shapeMismatch
  | normalizationMismatch
  | resultsShapeMismatch
deriving DecidableEq

/-- Shape `(nshells, nbins)` of one GRID, as numpy's `.shape` reports it. -/
def gridShape (g : List (List ℚ)) : ℕ × ℕ := (g.length, (g.headD []).length)

/-- Embedding of the first assert of `super_fast_EMD_matrix` (lines 717-720):
`np.all(np.isclose(shapes, shapes[0]))`. -/
def shapeCheck (grids : List (List (List ℚ))) : Bool :=
  let s0 := gridShape (grids.headD [])
  grids.all fun g =>
    npIsClose ((gridShape g).1 : ℚ) (s0.1 : ℚ) &&
      npIsClose ((gridShape g).2 : ℚ) (s0.2 : ℚ)

/-- Embedding of the second assert of `super_fast_EMD_matrix` (lines 746-748):
`np.all(np.isclose(grid_cumsum[0, 0, -1], grid_cumsum[:, :, -1]))`, i.e. the
final cumulative value (total mass) of every shell of every grid must be
close to that of the first shell of the first grid. -/
def massCheck (gc : List (List (List ℚ))) : Bool :=
  let m0 := ((gc.headD []).headD []).getLastD 0
  gc.all fun g => g.all fun row => npIsClose m0 (row.getLastD 0)

/-- Embedding of the assert `results_array.shape == (len, len)` guarding an
externally supplied output sink (line 751); `none` models the default
`results_array=None`. -/
def resultsShapeOK : Option (ℕ × ℕ) → ℕ → Bool
  | none, _ => true
  | some s, n => s = (n, n)

/-- Embedding of `super_fast_EMD_matrix(grids, bin_width, weighting='constant',
results_array)` (lines 671-761) restricted to its default `'constant'`
weighting (the configuration exercised by the specification's claims): the
shape assert runs first, then cumulative sums are taken, then the
normalisation assert, then the optional output sink's shape assert, and only
then is the row loop entered.  An external sink is represented by its shape,
since every row of the sink is fully overwritten before being read. -/
def super_fast_EMD_matrix (grids : List (List (List ℚ))) (binWidth : ℚ)
    (resultsShape : Option (ℕ × ℕ)) :
    Except EMDMatrixError (List (List ℚ)) :=
  if shapeCheck grids then
    if massCheck (grids.map fun g => g.map cumsum) then
      if resultsShapeOK resultsShape grids.length then
        .ok (buildRows (grids.map fun g => g.map cumsum) binWidth
          (List.replicate (grids.headD []).length 1))
      else .error .resultsShapeMismatch
    else .error .normalizationMismatch
  else .error .shapeMismatch

/-- The symmetric matrix entry that `super_fast_EMD_matrix` realises: the
pair distance is computed with the smaller index as first kernel argument
and mirrored across the diagonal. -/
def symEntry (cs : List (List (List ℚ))) (bw : ℚ) (w : List ℚ) (i j : ℕ) : ℚ :=
  if i ≤ j then EMD_cumsum (cs.getD i []) (cs.getD j []) bw (some w)
  else EMD_cumsum (cs.getD j []) (cs.getD i []) bw (some w)

/-- IEEE-style extended value modelling the numpy float semantics met by the
composition ground-metric transform: a finite rational, positive infinity,
or nan.  Only the operations and the domains the transform exercises are
modelled. -/
inductive IEEE where
  | fin (q : ℚ)
  | posInf
  | nan
deriving DecidableEq

/-- Reciprocal under numpy semantics: `1 / 0` evaluates to `inf` (numpy
emits a RuntimeWarning but no exception) and `1 / inf = 0`. -/
def IEEE.recip : IEEE → IEEE
  | .fin q => if q = 0 then .posInf else .fin q⁻¹
  | .posInf => .fin 0
  | .nan => .nan

/-- Adding the constant 1 under numpy semantics. -/
def IEEE.addOne : IEEE → IEEE
  | .fin q => .fin (q + 1)
  | .posInf => .posInf
  | .nan => .nan

/-- numpy `log10`, parametrised by an abstract finite `log10` function on
positive rationals (`log10` of a positive rational is not rational, so the
finite branch carries the abstract `lg`); `log10(inf) = inf`.  Non-positive
finite arguments (never produced from similarity scores in [0, 1]) are
collapsed to nan. -/
def ieeeLog10 (lg : ℚ → ℚ) : IEEE → IEEE
  | .fin q => if 0 < q then .fin (lg q) else .nan
  | .posInf => .posInf
  | .nan => .nan

/-- Embedding of the entrywise ground-metric transform
`1 / (np.log10(1 / S + 1))` applied by `composition_similarity_matrix`
(earth_mover_distance.py, line 523) to one raw similarity score. -/
def compositionTransform (lg : ℚ → ℚ) (s : ℚ) : IEEE :=
  IEEE.recip (ieeeLog10 lg (IEEE.addOne (IEEE.recip (IEEE.fin s))))

/-- Embedding of the ground-metric matrix construction of
`composition_similarity_matrix` (lines 519-530): the similarity table is
transformed entrywise, uniformly, with no special-casing of any entry.
(CSV reading, element reindexing and the later pairwise EMD loop of the
source function are outside the scope of the transform claim.) -/
def composition_similarity_matrix (lg : ℚ → ℚ) (table : List (List ℚ)) :
    List (List IEEE) :=
  table.map fun row => row.map (compositionTransform lg)

/-- A concrete stand-in for `log10` that agrees with the real `log10` on the
only finite argument the composition counterexample evaluates it at:
`log10 10 = 1` (exact, also in IEEE floats). -/
def lgEx (q : ℚ) : ℚ := if q = 10 then 1 else 0

/-- Each element of a list repeated twice in place; the pooled sorted list
`sort (l ++ l)` of `wasserstein_distance` on two equal sorted value lists
has exactly this form. -/
def dbl : List ℚ → List ℚ
  | [] => []
  | x :: xs => x :: x :: dbl xs

/-- The flattened offset bin construction of the "fast" branch, rephrased
as a recursion peeling one shell at a time: shell 0 sits at offset `c`, and
each later shell is shifted by a further `step`.  `flatBins` (the source
form) is proved equal to this (`flatBins_eq`). -/
def flatBinsFrom (bins : List ℚ) (c step : ℚ) : ℕ → List ℚ
  | 0 => []
  | n + 1 => bins.map (· + c) ++ flatBinsFrom bins (c + step) step n

/-- Weighted CDF numerator of `scipy.stats.wasserstein_distance`: the total
weight sitting at values `≤ x`, with `vals` and `wts` paired positionally
(scipy's `u_values`/`u_weights`). -/
def cdfAt (vals wts : List ℚ) (x : ℚ) : ℚ :=
  (((vals.zip wts).filter fun p => decide (p.1 ≤ x)).map Prod.snd).sum

/-- Core sum of `scipy.stats.wasserstein_distance`: over consecutive pairs
of the pooled sorted value list, `|d(x_k)| * (x_{k+1} - x_k)`, where `d` is
the difference of the two weight-normalised CDFs. -/
def wCore (d : ℚ → ℚ) : List ℚ → ℚ
  | [] => 0
  | [_] => 0
  | x :: y :: rest => |d x| * (y - x) + wCore d (y :: rest)

/-- Embedding of `scipy.stats.wasserstein_distance(u_values, v_values,
u_weights, v_weights)`: pool and sort the two value lists, then integrate
the absolute difference of the two weight-normalised step CDFs over the
consecutive pooled points.  (scipy additionally validates that the
distributions are non-empty with non-negative weights of positive total;
claims about inputs scipy accepts carry those conditions as hypotheses.) -/
def wasserstein_distance (uVals vVals uW vW : List ℚ) : ℚ :=
  wCore (fun x => cdfAt uVals uW x / uW.sum - cdfAt vVals vW x / vW.sum)
    (List.insertionSort (· ≤ ·) (uVals ++ vVals))

/-- Embedding of `np.linspace(lo, hi, n)`. -/
def linspace (lo hi : ℚ) (n : ℕ) : List ℚ :=
  (List.range n).map fun i : ℕ => lo + (hi - lo) * (i : ℚ) / ((n : ℚ) - 1)

/-- The flattened 1D bin coordinates built by the "fast" branch of
`rdf_emd_similarity` (lines 800-806): shell `j`'s bins are offset by
`j * emd_bins[-1]` and the rows are concatenated (`ravel`). -/
def flatBins (bins : List ℚ) (nshells : ℕ) : List ℚ :=
  ((List.range nshells).map fun j : ℕ =>
    bins.map fun x => x + (j : ℚ) * bins.getLastD 0).join

/-- The "orig" method of `rdf_emd_similarity` for 2D input (lines 785-792):
the mean over shells of the per-shell `wasserstein_distance` on the common
bin grid `np.linspace(0, max_distance, nbins)`. -/
def origMethodDense (a b : List (List ℚ)) (md : ℚ) : ℚ :=
  npMean (List.zipWith
    (fun ra rb => wasserstein_distance (linspace 0 md (a.headD []).length)
      (linspace 0 md (a.headD []).length) ra rb) a b)

/-- The "fast" method of `rdf_emd_similarity` on two dense 2D arrays
(lines 793-809): one `wasserstein_distance` call on the flattened offset
bins with the `ravel`-led weights. -/
def fastMethodDense (a b : List (List ℚ)) (md : ℚ) : ℚ :=
  wasserstein_distance
    (flatBins (linspace 0 md (a.headD []).length) a.length)
    (flatBins (linspace 0 md (a.headD []).length) a.length)
    a.join b.join

/-- One flattened bin coordinate `emd_bins_1D[r][c]` as indexed by a sparse
entry. -/
def flatBinAt (bins : List ℚ) (r c : ℕ) : ℚ :=
  bins.getD c 0 + (r : ℚ) * bins.getLastD 0

/-- The "fast" method of `rdf_emd_similarity` on two sparse (COO) arrays
(lines 810-816): only the populated coordinates' flattened bin positions
and stored values are passed. -/
def fastMethodSparse (ea eb : List (ℕ × ℕ × ℚ)) (bins : List ℚ) : ℚ :=
  wasserstein_distance
    (ea.map fun e => flatBinAt bins e.1 e.2.1)
    (eb.map fun e => flatBinAt bins e.1 e.2.1)
    (ea.map fun e => e.2.2) (eb.map fun e => e.2.2)

/-- An `rdf_emd_similarity` input: a 1D dense array, a 2D dense array, or a
2D sparse `coo_matrix` given by its populated `(row, col, value)` triples
and its shape. -/
inductive RdfArr where
  | dense1 (v : List ℚ)
  | dense (g : List (List ℚ))
  | sparse (entries : List (ℕ × ℕ × ℚ)) (rows cols : ℕ)

/-- numpy's `.shape` of an input, as a list of dimensions. -/
def RdfArr.shape : RdfArr → List ℕ
  | .dense1 v => [v.length]
  | .dense g => [g.length, (g.headD []).length]
  | .sparse _ r c => [r, c]

/-- `shape[-1]`, the bin count used for `emd_bins`. -/
def RdfArr.lastDim : RdfArr → ℕ
  | .dense1 v => v.length
  | .dense g => (g.headD []).length
  | .sparse _ _ c => c

/-- Embedding of `.sum(axis=1)`: per-shell total mass (in the sparse case
duplicate entries at one coordinate add, as `coo_matrix.sum` does). -/
def RdfArr.shellSums : RdfArr → List ℚ
  | .dense1 v => [v.sum]
  | .dense g => g.map List.sum
  | .sparse es r _ =>
      (List.range r).map fun i =>
        ((es.filter fun e => decide (e.1 = i)).map fun e => e.2.2).sum

/-- Whether the input is a dense 2D `np.ndarray`. -/
def RdfArr.isDense2 : RdfArr → Bool
  | .dense _ => true
  | _ => false

/-- Whether the input is a sparse `coo_matrix`. -/
def RdfArr.isSparse : RdfArr → Bool
  | .sparse _ _ _ => true
  | _ => false

/-- Failure modes of `rdf_emd_similarity`: its shape assert, its two
normalisation asserts, and the TypeError that indexing a `coo_matrix` in
the "orig" branch raises. -/
inductive RdfError where
  | shapeAssert
  | normalizationAssert
  | pyTypeError
deriving DecidableEq

/-- Embedding of `rdf_emd_similarity(rdf_a, rdf_b, max_distance, method)`
(lines 764-818).  The shape assert runs first; for 2D inputs, "orig" loops
`wasserstein_distance` per shell, and "fast" validates per-shell
normalisation of both inputs and then dispatches on the two input
representations; when the method string matches no branch, or when exactly
one input is dense and the other sparse, the function falls through every
branch and returns Python's implicit `None`. -/
def rdf_emd_similarity (a b : RdfArr) (md : ℚ) (method : String) :
    Except RdfError (Option ℚ) :=
  if a.shape ≠ b.shape then .error .shapeAssert
  else if a.shape.length = 2 then
    if method = "orig" then
      match a, b with
      | .dense ga, .dense gb => .ok (some (origMethodDense ga gb md))
      | _, _ => .error .pyTypeError
    else if method = "fast" then
      if a.shellSums.all fun s => npIsClose s 1 then
        if b.shellSums.all fun s => npIsClose s 1 then
          match a, b with
          | .dense ga, .dense gb => .ok (some (fastMethodDense ga gb md))
          | .sparse ea _ _, .sparse eb _ _ =>
              .ok (some (fastMethodSparse ea eb (linspace 0 md a.lastDim)))
          | _, _ => .ok none
        else .error .normalizationAssert
      else .error .normalizationAssert
    else .ok none
  else
    match a, b with
    | .dense1 va, .dense1 vb =>
        .ok (some (wasserstein_distance (linspace 0 md a.lastDim)
          (linspace 0 md a.lastDim) va vb))
    | _, _ => .ok none

end GridRDF

namespace GridRDF

/-! Auxiliary lemmas about the embedded numpy primitives. -/

lemma cumsumAux_mem_le {r : List ℚ} (h : ∀ x ∈ r, 0 ≤ x) :
    ∀ (acc : ℚ), ∀ y ∈ cumsumAux acc r, y ≤ acc + r.sum := by
  induction r with
  | nil => intro acc y hy; simp [cumsumAux] at hy
  | cons x xs ih =>
      intro acc y hy
      simp only [cumsumAux, List.mem_cons] at hy
      rcases hy with rfl | hy
      · have hxs : 0 ≤ xs.sum :=
          List.sum_nonneg fun a ha => h a (List.mem_cons_of_mem _ ha)
        simp only [List.sum_cons]
        linarith
      · have := ih (fun a ha => h a (List.mem_cons_of_mem _ ha)) (acc + x) y hy
        simp only [List.sum_cons]
        linarith

lemma sum_mem_cumsumAux {r : List ℚ} (h : r ≠ []) (acc : ℚ) :
    acc + r.sum ∈ cumsumAux acc r := by
  induction r generalizing acc with
  | nil => exact absurd rfl h
  | cons x xs ih =>
      by_cases hxs : xs = []
      · subst hxs; simp [cumsumAux]
      · have hmem := ih hxs (acc + x)
        simp only [cumsumAux, List.mem_cons, List.sum_cons]
        right
        have heq : acc + (x + xs.sum) = acc + x + xs.sum := by ring
        rw [heq]
        exact hmem

lemma foldl_max_le {l : List ℚ} {m : ℚ} (h : ∀ x ∈ l, x ≤ m) :
    ∀ {a : ℚ}, a ≤ m → l.foldl max a ≤ m := by
  induction l with
  | nil => intro a ha; simpa using ha
  | cons x xs ih =>
      intro a ha
      simp only [List.foldl_cons]
      exact ih (fun y hy => h y (List.mem_cons_of_mem _ hy))
        (max_le ha (h x (List.mem_cons_self x xs)))

lemma le_foldl_max_init (l : List ℚ) (a : ℚ) : a ≤ l.foldl max a := by
  induction l generalizing a with
  | nil => simp
  | cons x xs ih =>
      simp only [List.foldl_cons]
      exact le_trans (le_max_left a x) (ih (max a x))

lemma le_foldl_max {l : List ℚ} {y : ℚ} (hy : y ∈ l) (a : ℚ) :
    y ≤ l.foldl max a := by
  induction l generalizing a with
  | nil => simp at hy
  | cons x xs ih =>
      simp only [List.mem_cons] at hy
      simp only [List.foldl_cons]
      rcases hy with rfl | hy
      · exact le_trans (le_max_right a y) (le_foldl_max_init xs (max a y))
      · exact ih hy (max a x)

lemma npMax_eq {l : List ℚ} {m : ℚ} (hmem : m ∈ l) (hle : ∀ x ∈ l, x ≤ m) :
    npMax l = m := by
  cases l with
  | nil => simp at hmem
  | cons x xs =>
      refine le_antisymm ?_ ?_
      · exact foldl_max_le hle (hle _ (by simp [List.headD]))
      · exact le_foldl_max hmem _

lemma npMax2_map_cumsum {g : List (List ℚ)} {m : ℚ} (hne : g ≠ [])
    (h : ∀ r ∈ g, r ≠ [] ∧ (∀ x ∈ r, 0 ≤ x) ∧ r.sum = m) :
    npMax2 (g.map cumsum) = m := by
  apply npMax_eq
  · cases g with
    | nil => exact absurd rfl hne
    | cons r rs =>
        obtain ⟨hr, _, hsum⟩ := h r (List.mem_cons_self r rs)
        have : m ∈ cumsum r := by
          have := sum_mem_cumsumAux hr (0 : ℚ)
          rwa [zero_add, hsum] at this
        exact List.mem_join.2 ⟨cumsum r, by simp [cumsum], this⟩
  · intro y hy
    obtain ⟨L, hL, hyL⟩ := List.mem_join.1 hy
    obtain ⟨r, hr, rfl⟩ := List.mem_map.1 hL
    obtain ⟨_, hnn, hsum⟩ := h r hr
    have := cumsumAux_mem_le hnn 0 y hyL
    rwa [zero_add, hsum] at this

lemma sumAbsDiff_comm (a b : List ℚ) : sumAbsDiff a b = sumAbsDiff b a := by
  unfold sumAbsDiff
  induction a generalizing b with
  | nil => cases b <;> simp
  | cons x xs ih =>
      cases b with
      | nil => simp
      | cons y ys => simp [List.zipWith, abs_sub_comm, ih]

lemma sumAbsDiff_self (a : List ℚ) : sumAbsDiff a a = 0 := by
  unfold sumAbsDiff
  induction a with
  | nil => simp
  | cons x xs ih => simp [List.zipWith, ih]

lemma zipWith_map_comp {α : Type} (f : α → α → ℚ) (F : ℚ → ℚ) :
    ∀ (l1 l2 : List α),
      List.zipWith (fun a b => F (f a b)) l1 l2
        = (List.zipWith f l1 l2).map F := by
  intro l1
  induction l1 with
  | nil => intro l2; simp
  | cons x xs ih => intro l2; cases l2 <;> simp [ih]

lemma zipWith_replicate_left_map {α β : Type} (f : ℚ → α → β) (c : ℚ)
    {n : ℕ} {s : List α} (h : s.length ≤ n) :
    List.zipWith f (List.replicate n c) s = s.map (f c) := by
  induction s generalizing n with
  | nil => simp
  | cons x xs ih =>
      cases n with
      | zero => simp at h
      | succ k =>
          simp only [List.replicate, List.zipWith, List.map]
          rw [ih (Nat.le_of_succ_le_succ h)]

/-- The closed-form identity realised by `_EMD_cumsum` on cumulative inputs:
with default weights, the result is the plain mean over shells of
`sum(|A_j - B_j|) * bin_width / m`, provided every shell of the first
argument is a non-empty non-negative histogram of total mass `m`. -/
lemma EMD_cumsum_formula {g1 : List (List ℚ)} (g2 : List (List ℚ))
    {bw m : ℚ} (hne : g1 ≠ [])
    (h : ∀ r ∈ g1, r ≠ [] ∧ (∀ x ∈ r, 0 ≤ x) ∧ r.sum = m) :
    EMD_cumsum (g1.map cumsum) (g2.map cumsum) bw none
      = npMean (List.zipWith
          (fun r1 r2 => sumAbsDiff (cumsum r1) (cumsum r2) * bw / m) g1 g2) := by
  unfold EMD_cumsum
  rw [npMax2_map_cumsum hne h]
  simp only [Option.getD_none, List.length_map]
  rw [List.zipWith_map (f := sumAbsDiff) (g := cumsum) (h := cumsum)]
  set s := List.zipWith (fun r1 r2 => sumAbsDiff (cumsum r1) (cumsum r2)) g1 g2
    with hs
  have hlen : s.length ≤ g1.length := by
    rw [hs, List.length_zipWith]; exact min_le_left _ _
  rw [zipWith_replicate_left_map _ _ hlen]
  have hcomp :
      List.zipWith (fun r1 r2 =>
          sumAbsDiff (cumsum r1) (cumsum r2) * bw / m) g1 g2
        = s.map (fun x => x * bw / m) := by
    rw [hs]
    exact zipWith_map_comp (fun r1 r2 => sumAbsDiff (cumsum r1) (cumsum r2))
      (fun x => x * bw / m) g1 g2
  rw [hcomp]
  congr 1
  apply List.map_congr_left
  intro x _
  ring

lemma npMax_of_all_zero {l : List ℚ} (h : ∀ x ∈ l, x = 0) : npMax l = 0 := by
  cases l with
  | nil => simp [npMax]
  | cons x xs =>
      apply npMax_eq
      · have := h x (List.mem_cons_self x xs)
        rw [← this]
        exact List.mem_cons_self x xs
      · intro y hy
        rw [h y hy]

lemma sum_zipWith_zero {α β : Type} :
    ∀ (l1 : List α) (l2 : List β),
      (List.zipWith (fun _ _ => (0 : ℚ)) l1 l2).sum = 0 := by
  intro l1
  induction l1 with
  | nil => intro l2; simp
  | cons x xs ih => intro l2; cases l2 <;> simp [ih]

/-- Claim C1.  The cumulative EMD kernel `_EMD_cumsum` computes the
closed-form identity: for non-negative shells of common total mass `m`, the
value is the mean over shells of `sum(|A_j - B_j|) * bin_width / m` where
`A = cumsum(a)`, `B = cumsum(b)` and `m = max(A)`; and on the 1D histograms
`[1,0,0,0]` vs `[0,0,0,1]` with `bin_width = 1` the result is exactly 3. -/
theorem C1_cumulative_emd_identity :
    (∀ (g1 g2 : List (List ℚ)) (bw m : ℚ),
        g1 ≠ [] →
        (∀ r ∈ g1, r ≠ [] ∧ (∀ x ∈ r, 0 ≤ x) ∧ r.sum = m) →
        EMD_cumsum (g1.map cumsum) (g2.map cumsum) bw none
          = npMean (List.zipWith
              (fun r1 r2 => sumAbsDiff (cumsum r1) (cumsum r2) * bw / m) g1 g2))
    ∧ EMD_cumsum [cumsum [1, 0, 0, 0]] [cumsum [0, 0, 0, 1]] 1 none = 3 := by
  constructor
  · intro g1 g2 bw m hne h
    exact EMD_cumsum_formula g2 hne h
  · norm_num [EMD_cumsum, cumsum, cumsumAux, npMax2, npMax, npMean, sumAbsDiff, List.zipWith, List.replicate]

/-- Witness for C1: the identity instantiated on the spec's own example. -/
theorem C1_witness :
    EMD_cumsum ([[(1 : ℚ), 0, 0, 0]].map cumsum)
        ([[(0 : ℚ), 0, 0, 1]].map cumsum) 1 none
      = npMean (List.zipWith
          (fun r1 r2 => sumAbsDiff (cumsum r1) (cumsum r2) * 1 / 1)
          [[(1 : ℚ), 0, 0, 0]] [[(0 : ℚ), 0, 0, 1]]) :=
  C1_cumulative_emd_identity.1 [[(1 : ℚ), 0, 0, 0]] [[(0 : ℚ), 0, 0, 1]] 1 1
    (by simp) (by norm_num [List.cons_ne_nil])

/-- Counterexample for claim C3: `_EMD_cumsum` divides by the maximum of its
first argument only, so on cumulative inputs of unequal total mass
(`[1,1]` has mass 1, `[0,2]` has mass 2) the two argument orders give 2 and
1 respectively — the kernel is not symmetric over all accepted pairs. -/
theorem C3_counterexample :
    EMD_cumsum [[(1 : ℚ), 1]] [[(0 : ℚ), 2]] 1 none
      ≠ EMD_cumsum [[(0 : ℚ), 2]] [[(1 : ℚ), 1]] 1 none := by
  norm_num [EMD_cumsum, cumsum, cumsumAux, npMax2, npMax, npMean, sumAbsDiff, List.zipWith, List.replicate]

/-- Amended claim C3: the pairwise cumulative EMD is symmetric on every pair
of descriptors of equal total mass (the invariant the batch validation
enforces): for non-negative multi-shell histograms whose shells all sum to
the same `m`, swapping the argument order does not change the value. -/
theorem C3_amended_symmetric_equal_mass :
    ∀ (a b : List (List ℚ)) (bw m : ℚ),
      a ≠ [] → b ≠ [] →
      (∀ r ∈ a, r ≠ [] ∧ (∀ x ∈ r, 0 ≤ x) ∧ r.sum = m) →
      (∀ r ∈ b, r ≠ [] ∧ (∀ x ∈ r, 0 ≤ x) ∧ r.sum = m) →
      EMD_cumsum (a.map cumsum) (b.map cumsum) bw none
        = EMD_cumsum (b.map cumsum) (a.map cumsum) bw none := by
  intro a b bw m ha hb hA hB
  rw [EMD_cumsum_formula b ha hA, EMD_cumsum_formula a hb hB]
  congr 1
  rw [List.zipWith_comm]
  congr 1
  funext r2 r1
  rw [sumAbsDiff_comm]

/-- Witness for the amended C3: symmetry on a concrete equal-mass pair. -/
theorem C3_witness :
    EMD_cumsum ([[(1 : ℚ), 0]].map cumsum) ([[(0 : ℚ), 1]].map cumsum) 1 none
      = EMD_cumsum ([[(0 : ℚ), 1]].map cumsum) ([[(1 : ℚ), 0]].map cumsum)
          1 none :=
  C3_amended_symmetric_equal_mass [[(1 : ℚ), 0]] [[(0 : ℚ), 1]] 1 1
    (by simp) (by simp) (by norm_num [List.cons_ne_nil])
    (by norm_num [List.cons_ne_nil])

/-- Counterexample for claim C5: a zero-mass first histogram does not raise
any error — `_EMD_cumsum` performs the division by `max(A) = 0` and simply
returns a value (under the exact-arithmetic division-by-zero convention the
returned value is `0`; numpy returns `inf`/`nan`, equally without raising).
No `DegenerateInputError` exists anywhere in the code. -/
theorem C5_counterexample :
    EMD_cumsum [[(0 : ℚ), 0]] [[(0 : ℚ), 1]] 1 none = 0 := by
  norm_num [EMD_cumsum, cumsum, cumsumAux, npMax2, npMax, npMean, sumAbsDiff, List.zipWith, List.replicate]

/-- Amended claim C5: the cumulative kernel performs no zero-mass
validation; for every zero-mass (all bins zero) first histogram the division
by `max(A) = 0` is reached and a non-error value is returned (the
division-by-zero convention's value), for any second argument, bin width and
weights. -/
theorem C5_amended_no_error :
    ∀ (g1 g2 : List (List ℚ)) (bw : ℚ) (w : Option (List ℚ)),
      (∀ r ∈ g1, ∀ x ∈ r, x = 0) →
      EMD_cumsum g1 g2 bw w = 0 := by
  intro g1 g2 bw w h
  have hmax : npMax2 g1 = 0 := by
    apply npMax_of_all_zero
    intro x hx
    obtain ⟨r, hr, hxr⟩ := List.mem_join.1 hx
    exact h r hr x hxr
  simp only [EMD_cumsum, hmax]
  have hfun : (fun wj s => wj * s / (0 : ℚ) * bw) = fun _ _ => (0 : ℚ) := by
    funext wj s
    simp
  rw [hfun]
  unfold npMean
  rw [sum_zipWith_zero]
  exact zero_div _

/-- Witness for the amended C5: a concrete zero-mass input yields the plain
value `0`, not an error. -/
theorem C5_witness :
    EMD_cumsum [[(0 : ℚ), 0, 0]] [[(1 : ℚ), 2, 3]] 1 none = 0 :=
  C5_amended_no_error [[(0 : ℚ), 0, 0]] [[(1 : ℚ), 2, 3]] 1 none (by norm_num)

/-- Claim C7.  Shell combination with uniform weights is shell-count
invariant: if the `n ≥ 1` per-shell distances (`sum|A_j - B_j| / max * bw`)
are all equal to `d`, then the combined EMD with default (`None`) weights
equals `d`, and with explicit all-ones weights it also equals `d` — the two
weight choices produce identical results. -/
theorem C7_uniform_weights_shell_invariant :
    ∀ (g1 g2 : List (List ℚ)) (bw d : ℚ) (n : ℕ),
      g1.length = n → 1 ≤ n →
      List.zipWith (fun r1 r2 => sumAbsDiff r1 r2 / npMax2 g1 * bw) g1 g2
        = List.replicate n d →
      EMD_cumsum g1 g2 bw none = d
        ∧ EMD_cumsum g1 g2 bw (some (List.replicate n 1)) = d := by
  intro g1 g2 bw d n hlen hn hshell
  have hmain : EMD_cumsum g1 g2 bw (some (List.replicate n 1)) = d := by
    simp only [EMD_cumsum, Option.getD_some]
    set s := List.zipWith sumAbsDiff g1 g2 with hs
    have hslen : s.length = n := by
      have h1 : (List.zipWith
          (fun r1 r2 => sumAbsDiff r1 r2 / npMax2 g1 * bw) g1 g2).length
          = (List.replicate n d).length := by rw [hshell]
      rw [List.length_zipWith, List.length_replicate] at h1
      rw [hs, List.length_zipWith]
      exact h1
    rw [zipWith_replicate_left_map _ _ (le_of_eq hslen)]
    have hcomp :
        List.zipWith (fun r1 r2 => sumAbsDiff r1 r2 / npMax2 g1 * bw) g1 g2
          = s.map fun x => x / npMax2 g1 * bw := by
      rw [hs]
      exact zipWith_map_comp sumAbsDiff (fun x => x / npMax2 g1 * bw) g1 g2
    have hmap : s.map (fun x => 1 * x / npMax2 g1 * bw)
        = List.replicate n d := by
      rw [← hshell, hcomp]
      apply List.map_congr_left
      intro x _
      ring
    rw [hmap]
    unfold npMean
    rw [List.sum_replicate, List.length_replicate, nsmul_eq_mul]
    have hnz : (n : ℚ) ≠ 0 := Nat.cast_ne_zero.mpr (by omega)
    exact mul_div_cancel_left₀ d hnz
  refine ⟨?_, hmain⟩
  have : EMD_cumsum g1 g2 bw none
      = EMD_cumsum g1 g2 bw (some (List.replicate n 1)) := by
    simp only [EMD_cumsum, Option.getD_none, Option.getD_some, hlen]
  rw [this, hmain]

/-- Witness for C7: two shells with identical per-shell distance 1 combine
to exactly 1 under both default and explicit uniform weights. -/
theorem C7_witness :
    EMD_cumsum [[(1 : ℚ), 1], [(1 : ℚ), 1]] [[(0 : ℚ), 1], [(0 : ℚ), 1]]
        1 none = 1
      ∧ EMD_cumsum [[(1 : ℚ), 1], [(1 : ℚ), 1]] [[(0 : ℚ), 1], [(0 : ℚ), 1]]
          1 (some (List.replicate 2 1)) = 1 :=
  C7_uniform_weights_shell_invariant
    [[(1 : ℚ), 1], [(1 : ℚ), 1]] [[(0 : ℚ), 1], [(0 : ℚ), 1]] 1 1 2
    (by decide) (by decide)
    (by norm_num [sumAbsDiff, npMax2, npMax, List.zipWith, List.replicate])

end GridRDF

namespace GridRDF

/-! Lemmas about the parallel matrix builder. -/

lemma getD_map_range {α : Type} (f : ℕ → α) {n i : ℕ} (h : i < n) (d : α) :
    ((List.range n).map f).getD i d = f i := by
  rw [List.getD_eq_getElem?_getD, List.getElem?_map, List.getElem?_range h]
  rfl

lemma sum_zipWith_replicate_zero {f : ℚ → ℚ → ℚ} (hf : ∀ a, f a 0 = 0) :
    ∀ (w : List ℚ) (n : ℕ), (List.zipWith f w (List.replicate n 0)).sum = 0 := by
  intro w
  induction w with
  | nil => intro n; simp
  | cons x xs ih =>
      intro n
      cases n with
      | zero => simp
      | succ k => simp [List.replicate, List.zipWith, hf, ih]

lemma EMD_cumsum_self (g : List (List ℚ)) (bw : ℚ) (w : Option (List ℚ)) :
    EMD_cumsum g g bw w = 0 := by
  have hz : List.zipWith sumAbsDiff g g = List.replicate g.length 0 := by
    induction g with
    | nil => simp
    | cons r rs ih => simp [List.zipWith, ih, sumAbsDiff_self, List.replicate]
  simp only [EMD_cumsum, hz]
  unfold npMean
  rw [sum_zipWith_replicate_zero (fun a => by ring)]
  exact zero_div _

lemma symEntry_comm (cs : List (List (List ℚ))) (bw : ℚ) (w : List ℚ)
    (i j : ℕ) : symEntry cs bw w i j = symEntry cs bw w j i := by
  unfold symEntry
  rcases le_total i j with hij | hij
  · by_cases hji : j ≤ i
    · have : i = j := le_antisymm hij hji
      subst this; rfl
    · simp [hij, hji]
  · by_cases hji : i ≤ j
    · have : i = j := le_antisymm hji hij
      subst this; rfl
    · simp [hij, hji]

lemma buildRows_fold (cs : List (List (List ℚ))) (bw : ℚ) (w : List ℚ) :
    ∀ k, k ≤ cs.length →
      (List.range k).foldl
          (fun acc i => acc ++ [mirrorRow acc (emd_cumsum_row cs i bw (some w))])
          []
        = (List.range k).map fun i =>
            (List.range cs.length).map (symEntry cs bw w i) := by
  intro k
  induction k with
  | zero => intro _; simp
  | succ k ih =>
      intro hk
      have hkn : k < cs.length := hk
      rw [List.range_succ, List.foldl_append, List.map_append, ih (le_of_lt hkn)]
      simp only [List.foldl_cons, List.foldl_nil, List.map_cons, List.map_nil]
      congr 1
      congr 1
      have hrowlen : (emd_cumsum_row cs k bw (some w)).length = cs.length := by
        simp [emd_cumsum_row]
      have hPlen :
          ((List.range k).map fun i =>
            (List.range cs.length).map (symEntry cs bw w i)).length = k := by
        simp
      unfold mirrorRow
      rw [hrowlen, hPlen]
      apply List.map_congr_left
      intro q hq
      have hqn : q < cs.length := List.mem_range.mp hq
      by_cases hqk : q < k
      · rw [if_pos hqk, getD_map_range _ hqk, getD_map_range _ hkn]
        exact (symEntry_comm cs bw w k q).symm
      · rw [if_neg hqk]
        unfold emd_cumsum_row
        rw [getD_map_range _ hqn]
        have hle : k ≤ q := Nat.le_of_not_lt hqk
        simp [symEntry, hle]

lemma buildRows_eq (cs : List (List (List ℚ))) (bw : ℚ) (w : List ℚ) :
    buildRows cs bw w
      = (List.range cs.length).map fun i =>
          (List.range cs.length).map (symEntry cs bw w i) :=
  buildRows_fold cs bw w cs.length le_rfl

lemma super_fast_ok_eq {grids : List (List (List ℚ))} {bw : ℚ}
    {rs : Option (ℕ × ℕ)} {M : List (List ℚ)}
    (h : super_fast_EMD_matrix grids bw rs = .ok M) :
    M = buildRows (grids.map fun g => g.map cumsum) bw
        (List.replicate (grids.headD []).length 1) := by
  unfold super_fast_EMD_matrix at h
  by_cases h1 : shapeCheck grids
  · rw [if_pos h1] at h
    by_cases h2 : massCheck (grids.map fun g => g.map cumsum)
    · rw [if_pos h2] at h
      by_cases h3 : resultsShapeOK rs grids.length
      · rw [if_pos h3] at h
        simp only [Except.ok.injEq] at h
        exact h.symm
      · rw [if_neg h3] at h
        cases h
    · rw [if_neg h2] at h
      cases h
  · rw [if_neg h1] at h
    cases h

/-- Claim C2.  Any matrix successfully produced by `super_fast_EMD_matrix`
is square of size N x N, has an exactly zero diagonal, and satisfies
`D[i][j] = D[j][i]` for all indices; moreover the kernel's self-distance
`EMD(x, x)` is 0 for every descriptor, every bin width and every weights
choice. -/
theorem C2_matrix_builder_symmetry :
    (∀ (grids : List (List (List ℚ))) (bw : ℚ) (rs : Option (ℕ × ℕ))
        (M : List (List ℚ)),
      super_fast_EMD_matrix grids bw rs = .ok M →
      M.length = grids.length
        ∧ (∀ row ∈ M, row.length = grids.length)
        ∧ (∀ i, i < grids.length → (M.getD i []).getD i 0 = 0)
        ∧ (∀ i j, i < grids.length → j < grids.length →
            (M.getD i []).getD j 0 = (M.getD j []).getD i 0))
    ∧ (∀ (g : List (List ℚ)) (bw : ℚ) (w : Option (List ℚ)),
        EMD_cumsum g g bw w = 0) := by
  constructor
  · intro grids bw rs M h
    have hM := super_fast_ok_eq h
    set cs := grids.map fun g => g.map cumsum with hcs
    have hn : cs.length = grids.length := by simp [hcs]
    set w := List.replicate (grids.headD []).length (1 : ℚ) with hw
    rw [buildRows_eq] at hM
    subst hM
    refine ⟨by simp [hn], ?_, ?_, ?_⟩
    · intro row hrow
      obtain ⟨i, _, rfl⟩ := List.mem_map.1 hrow
      simp [hn]
    · intro i hi
      rw [getD_map_range _ (hn ▸ hi), getD_map_range _ (hn ▸ hi)]
      simp [symEntry, EMD_cumsum_self]
    · intro i j hi hj
      rw [getD_map_range _ (hn ▸ hi), getD_map_range _ (hn ▸ hj),
        getD_map_range _ (hn ▸ hj), getD_map_range _ (hn ▸ hi)]
      exact symEntry_comm cs bw w i j
  · exact fun g bw w => EMD_cumsum_self g bw w

end GridRDF

namespace GridRDF

set_option maxHeartbeats 1600000 in
/-- Witness for C2: the spec's Example 4 — three descriptors produce a 3x3
matrix whose diagonal entry is 0 and whose (0,1) and (1,0) entries agree. -/
theorem C2_witness :
    ([[(0 : ℚ), 1, 0], [1, 0, 1], [0, 1, 0]].getD 0 []).getD 0 0 = 0
      ∧ ([[(0 : ℚ), 1, 0], [1, 0, 1], [0, 1, 0]].getD 0 []).getD 1 0
          = ([[(0 : ℚ), 1, 0], [1, 0, 1], [0, 1, 0]].getD 1 []).getD 0 0 := by
  have h : super_fast_EMD_matrix
      [[[(1 : ℚ), 0]], [[(0 : ℚ), 1]], [[(1 : ℚ), 0]]] 1 none
      = .ok [[(0 : ℚ), 1, 0], [1, 0, 1], [0, 1, 0]] := by
    norm_num [super_fast_EMD_matrix, shapeCheck, massCheck, resultsShapeOK,
      gridShape, npIsClose, buildRows, mirrorRow, emd_cumsum_row, EMD_cumsum,
      symEntry, cumsum, cumsumAux, npMax2, npMax, npMean, sumAbsDiff,
      List.zipWith, List.replicate, List.range_succ, List.foldl_append,
      List.getD_cons_zero, List.getD_cons_succ]
  obtain ⟨hlen, hrows, hdiag, hsym⟩ :=
    C2_matrix_builder_symmetry.1 _ 1 none _ h
  exact ⟨hdiag 0 (by norm_num), hsym 0 1 (by norm_num) (by norm_num)⟩

/-- Claim C4.  The fast matrix builder validates total mass at batch setup:
whenever the shape assert passes but some shell's total mass is not close to
that of the first shell of the first grid, the whole computation returns the
normalisation error — structurally before `buildRows` is ever entered, so no
pairwise distance is computed. -/
theorem C4_mass_validation_fail_fast :
    ∀ (grids : List (List (List ℚ))) (bw : ℚ) (rs : Option (ℕ × ℕ)),
      shapeCheck grids = true →
      massCheck (grids.map fun g => g.map cumsum) = false →
      super_fast_EMD_matrix grids bw rs = .error .normalizationMismatch := by
  intro grids bw rs h1 h2
  unfold super_fast_EMD_matrix
  rw [if_pos h1, if_neg (by simp [h2])]

/-- Witness for C4: the spec's Example 5 — a single 2-shell descriptor whose
shells have total mass 1 and 2 fails at batch setup. -/
theorem C4_witness :
    super_fast_EMD_matrix [[[(1 : ℚ), 0], [1, 1]]] 1 none
      = .error .normalizationMismatch :=
  C4_mass_validation_fail_fast [[[(1 : ℚ), 0], [1, 1]]] 1 none
    (by norm_num [shapeCheck, gridShape, npIsClose])
    (by norm_num [massCheck, npIsClose, cumsum, cumsumAux])

/-- Counterexample for claim C9: the mirroring step `output[i, :i] =
output[:i, i]` does re-read previously written rows of the output sink —
with the same freshly computed row, two different stored prefixes give two
different written rows, so row `i` is not a function of the descriptors
alone. -/
theorem C9_counterexample :
    mirrorRow [[(0 : ℚ), 5]] [0, 0] ≠ mirrorRow [[(0 : ℚ), 7]] [0, 0] := by
  norm_num [mirrorRow, List.range_succ, List.getD_cons_zero,
    List.getD_cons_succ]

/-- Amended claim C9: the builder writes the matrix row by row, and entries
`j ≥ i` of row `i` come from the freshly computed distance row (which reads
only the descriptor array), but entries `k < i` are read back from the
previously written rows of the output sink, namely entry `(k, i)`. -/
theorem C9_amended_mirror_reads :
    ∀ (cs : List (List (List ℚ))) (bw : ℚ) (w : Option (List ℚ)) (i : ℕ)
      (prev : List (List ℚ)),
      prev.length = i → i < cs.length →
      (∀ j, i ≤ j → j < cs.length →
          (mirrorRow prev (emd_cumsum_row cs i bw w)).getD j 0
            = EMD_cumsum (cs.getD i []) (cs.getD j []) bw w)
        ∧ (∀ k, k < i →
            (mirrorRow prev (emd_cumsum_row cs i bw w)).getD k 0
              = (prev.getD k []).getD i 0) := by
  intro cs bw w i prev hplen hi
  have hrowlen : (emd_cumsum_row cs i bw w).length = cs.length := by
    simp [emd_cumsum_row]
  constructor
  · intro j hij hj
    unfold mirrorRow
    rw [hrowlen, getD_map_range _ hj, hplen, if_neg (by omega)]
    unfold emd_cumsum_row
    rw [getD_map_range _ hj, if_pos hij]
  · intro k hk
    unfold mirrorRow
    rw [hrowlen, getD_map_range _ (by omega), hplen, if_pos hk]

/-- Witness for the amended C9: with one previously written row `[9, 9]`,
entry 0 of the written row 1 is read back from that row (value 9, its column
1), while entry 1 is the freshly computed pair distance. -/
theorem C9_witness :
    (mirrorRow [[(9 : ℚ), 9]]
        (emd_cumsum_row [[[(1 : ℚ), 1]], [[(0 : ℚ), 1]]] 1 1 none)).getD 0 0
      = ([[(9 : ℚ), 9]].getD 0 []).getD 1 0
    ∧ (mirrorRow [[(9 : ℚ), 9]]
        (emd_cumsum_row [[[(1 : ℚ), 1]], [[(0 : ℚ), 1]]] 1 1 none)).getD 1 0
      = EMD_cumsum ([[[(1 : ℚ), 1]], [[(0 : ℚ), 1]]].getD 1 [])
          ([[[(1 : ℚ), 1]], [[(0 : ℚ), 1]]].getD 1 []) 1 none := by
  have h := C9_amended_mirror_reads [[[(1 : ℚ), 1]], [[(0 : ℚ), 1]]] 1 none 1
    [[(9 : ℚ), 9]] (by simp) (by decide)
  exact ⟨h.2 0 (by decide), h.1 1 (by decide) (by decide)⟩

end GridRDF

namespace GridRDF

lemma getD_map_lt {α β : Type} (f : α → β) {l : List α} {i : ℕ}
    (h : i < l.length) (d : β) (d0 : α) :
    (l.map f).getD i d = f (l.getD i d0) := by
  rw [List.getD_eq_getElem?_getD, List.getElem?_map,
    List.getElem?_eq_getElem h]
  rw [List.getD_eq_getElem?_getD, List.getElem?_eq_getElem h]
  rfl

/-- Counterexample for claim C8: the transform is applied uniformly with no
special-casing of self-pairs — on a table whose diagonal entry is the
legitimate similarity score 1/9, the diagonal of the produced matrix is
`1 / log10(1/(1/9) + 1) = 1 / log10 10 = 1`, not 0. -/
theorem C8_counterexample :
    composition_similarity_matrix lgEx [[1 / 9]] = [[IEEE.fin 1]]
      ∧ IEEE.fin (1 : ℚ) ≠ IEEE.fin 0 := by
  constructor
  · norm_num [composition_similarity_matrix, compositionTransform,
      IEEE.recip, IEEE.addOne, ieeeLog10, lgEx]
  · simp only [ne_eq, IEEE.fin.injEq]
    norm_num

/-- Amended claim C8: the composition ground metric applies
`M[i][j] = 1 / log10(1 / S[i][j] + 1)` uniformly to every entry, the
diagonal included — there is no special-casing; a diagonal entry comes out
exactly 0 when the table's self-similarity entry is 0, through IEEE
propagation (`1/0 = inf`, `log10(inf) = inf`, `1/inf = 0`), so the transform
does produce `inf` at the intermediate step. -/
theorem C8_amended_uniform_transform :
    (∀ (lg : ℚ → ℚ) (table : List (List ℚ)) (i j : ℕ),
        i < table.length → j < (table.getD i []).length →
        ((composition_similarity_matrix lg table).getD i []).getD j IEEE.nan
          = compositionTransform lg ((table.getD i []).getD j 0))
      ∧ (∀ lg : ℚ → ℚ, compositionTransform lg 0 = IEEE.fin 0)
      ∧ IEEE.recip (IEEE.fin 0) = IEEE.posInf := by
  refine ⟨?_, ?_, ?_⟩
  · intro lg table i j hi hj
    unfold composition_similarity_matrix
    rw [getD_map_lt _ hi _ []]
    rw [getD_map_lt _ hj _ 0]
  · intro lg
    simp [compositionTransform, IEEE.recip, IEEE.addOne, ieeeLog10]
  · simp [IEEE.recip]

/-- Witness for the amended C8: a table with self-similarity 0 produces the
diagonal entry `fin 0` through the uniform transform, whose first step is
the intermediate `inf`. -/
theorem C8_witness :
    ((composition_similarity_matrix lgEx [[(0 : ℚ)]]).getD 0 []).getD 0
        IEEE.nan
      = compositionTransform lgEx (([[(0 : ℚ)]].getD 0 []).getD 0 0)
    ∧ compositionTransform lgEx 0 = IEEE.fin 0
    ∧ IEEE.recip (IEEE.fin 0) = IEEE.posInf := by
  obtain ⟨h1, h2, h3⟩ := C8_amended_uniform_transform
  exact ⟨h1 lgEx [[(0 : ℚ)]] 0 0 (by decide) (by decide), h2 lgEx, h3⟩

end GridRDF

namespace GridRDF

/-- Claim C10.  `rdf_emd_similarity` can silently return `None`: for every
pair of same-shape 2D inputs it returns `None` when the method string is
neither "orig" nor "fast"; and under "fast", when the normalisation asserts
pass but exactly one input is a dense array and the other a sparse
`coo_matrix`, neither dispatch branch matches and `None` is returned with
no error raised. -/
theorem C10_silent_none :
    ∀ (a b : RdfArr) (md : ℚ) (method : String),
      a.shape = b.shape → a.shape.length = 2 →
      ((method ≠ "orig" → method ≠ "fast" →
          rdf_emd_similarity a b md method = .ok none)
        ∧ (((a.isDense2 && b.isSparse) || (a.isSparse && b.isDense2)) = true →
            (a.shellSums.all fun s => npIsClose s 1) = true →
            (b.shellSums.all fun s => npIsClose s 1) = true →
            rdf_emd_similarity a b md "fast" = .ok none)) := by
  intro a b md method hsh h2
  constructor
  · intro ho hf
    unfold rdf_emd_similarity
    rw [if_neg (fun hc => hc hsh), if_pos h2, if_neg ho, if_neg hf]
  · intro hmix hsa hsb
    unfold rdf_emd_similarity
    rw [if_neg (fun hc => hc hsh), if_pos h2,
      if_neg (by decide : ¬("fast" = "orig")), if_pos rfl, if_pos hsa,
      if_pos hsb]
    cases a <;> cases b <;>
      simp [RdfArr.isDense2, RdfArr.isSparse] at hmix <;> rfl

/-- Witness for C10: a dense 1x1 array against a sparse 1x1 `coo_matrix` of
the same shape and unit mass — the unknown method "emd" and the "fast"
method both yield `None`. -/
theorem C10_witness :
    rdf_emd_similarity (.dense [[(1 : ℚ)]]) (.sparse [(0, 0, (1 : ℚ))] 1 1) 5
        "emd" = .ok none
    ∧ rdf_emd_similarity (.dense [[(1 : ℚ)]]) (.sparse [(0, 0, (1 : ℚ))] 1 1) 5
        "fast" = .ok none := by
  have h := C10_silent_none (.dense [[(1 : ℚ)]]) (.sparse [(0, 0, (1 : ℚ))] 1 1)
    5 "emd" (by rfl) (by rfl)
  refine ⟨h.1 (by decide) (by decide), h.2 (by decide) ?_ ?_⟩
  · norm_num [RdfArr.shellSums, npIsClose]
  · norm_num [RdfArr.shellSums, npIsClose, List.filter]

end GridRDF

namespace GridRDF

lemma dbl_perm (l : List ℚ) : (dbl l).Perm (l ++ l) := by
  induction l with
  | nil => simp [dbl]
  | cons x xs ih =>
      simp only [dbl, List.cons_append]
      refine List.Perm.cons x ?_
      have h1 : (x :: dbl xs).Perm (x :: (xs ++ xs)) := List.Perm.cons x ih
      refine h1.trans ?_
      exact (List.perm_middle).symm

lemma mem_dbl {l : List ℚ} {a : ℚ} : a ∈ dbl l ↔ a ∈ l := by
  induction l with
  | nil => simp [dbl]
  | cons x xs ih => simp [dbl, ih, or_assoc]

lemma dbl_sorted {l : List ℚ} (h : l.Sorted (· ≤ ·)) :
    (dbl l).Sorted (· ≤ ·) := by
  induction l with
  | nil => simp [dbl]
  | cons x xs ih =>
      rw [List.sorted_cons] at h
      obtain ⟨hx, hxs⟩ := h
      simp only [dbl, List.sorted_cons, mem_dbl, List.mem_cons]
      refine ⟨?_, ?_, ih hxs⟩
      · rintro b (rfl | hb)
        · exact le_refl b
        · exact hx b hb
      · exact hx

lemma insertionSort_doubled {l : List ℚ} (h : l.Sorted (· ≤ ·)) :
    List.insertionSort (· ≤ ·) (l ++ l) = dbl l :=
  List.eq_of_perm_of_sorted
    ((List.perm_insertionSort _ (l ++ l)).trans (dbl_perm l).symm)
    (List.sorted_insertionSort _ (l ++ l)) (dbl_sorted h)

lemma wCore_dbl (d : ℚ → ℚ) (l : List ℚ) : wCore d (dbl l) = wCore d l := by
  induction l with
  | nil => simp [dbl]
  | cons x xs ih =>
      cases xs with
      | nil => simp [dbl, wCore]
      | cons y ys =>
          have hih := ih
          simp only [dbl, wCore] at hih ⊢
          rw [sub_self, mul_zero, zero_add] at *
          linarith [hih]

lemma wasserstein_sorted {l : List ℚ} (h : l.Sorted (· ≤ ·))
    (uW vW : List ℚ) :
    wasserstein_distance l l uW vW
      = wCore (fun x => cdfAt l uW x / uW.sum - cdfAt l vW x / vW.sum) l := by
  unfold wasserstein_distance
  rw [insertionSort_doubled h, wCore_dbl]

end GridRDF

namespace GridRDF

lemma cdfAt_append {v1 v2 w1 w2 : List ℚ} (h : v1.length = w1.length)
    (x : ℚ) :
    cdfAt (v1 ++ v2) (w1 ++ w2) x = cdfAt v1 w1 x + cdfAt v2 w2 x := by
  unfold cdfAt
  rw [List.zip_append h, List.filter_append, List.map_append, List.sum_append]

lemma cdfAt_all_gt {v w : List ℚ} {x : ℚ} (h : ∀ a ∈ v, x < a) :
    cdfAt v w x = 0 := by
  unfold cdfAt
  have hfil : (v.zip w).filter (fun p => decide (p.1 ≤ x)) = [] := by
    apply List.filter_eq_nil.mpr
    intro p hp
    have hv : p.1 ∈ v := List.of_mem_zip hp |>.1
    simp only [decide_eq_true_eq]
    exact not_le.mpr (h p.1 hv)
  rw [hfil]
  rfl

lemma cdfAt_all_le {v w : List ℚ} {x : ℚ} (h : ∀ a ∈ v, a ≤ x)
    (hlen : v.length = w.length) : cdfAt v w x = w.sum := by
  unfold cdfAt
  have hfil : (v.zip w).filter (fun p => decide (p.1 ≤ x)) = v.zip w := by
    apply List.filter_eq_self.mpr
    intro p hp
    have hv : p.1 ∈ v := List.of_mem_zip hp |>.1
    simp only [decide_eq_true_eq]
    exact h p.1 hv
  rw [hfil]
  congr 1
  exact List.map_snd_zip v w (le_of_eq hlen.symm)

lemma cdfAt_map_add (v w : List ℚ) (c x : ℚ) :
    cdfAt (v.map (· + c)) w (x + c) = cdfAt v w x := by
  unfold cdfAt
  rw [List.zip_map_left, List.filter_map, List.map_map]
  have h1 : ((fun p : ℚ × ℚ => decide (p.1 ≤ x + c)) ∘ Prod.map (· + c) id)
      = fun p : ℚ × ℚ => decide (p.1 ≤ x) := by
    funext p
    simp [Prod.map]
  have h2 : (Prod.snd ∘ Prod.map (· + c) (id : ℚ → ℚ))
      = (Prod.snd : ℚ × ℚ → ℚ) := by
    funext p
    simp [Prod.map]
  rw [h1, h2]

lemma wCore_congr {d e : ℚ → ℚ} :
    ∀ {l : List ℚ}, (∀ x ∈ l.dropLast, d x = e x) → wCore d l = wCore e l
  | [], _ => rfl
  | [_], _ => rfl
  | x :: y :: rest, h => by
      simp only [wCore]
      have hx : d x = e x := h x (by
        simp [List.dropLast_cons_of_ne_nil])
      rw [hx]
      congr 1
      exact wCore_congr fun z hz => h z (by
        simp only [List.dropLast_cons_of_ne_nil, List.cons_ne_nil,
          ne_eq, not_false_eq_true, List.mem_cons] at hz ⊢
        right
        exact hz)

lemma wCore_smul (k : ℚ) (d : ℚ → ℚ) :
    ∀ (l : List ℚ), wCore (fun x => k * d x) l = |k| * wCore d l
  | [] => by simp [wCore]
  | [_] => by simp [wCore]
  | x :: y :: rest => by
      simp only [wCore]
      rw [wCore_smul k d (y :: rest), abs_mul]
      ring

lemma wCore_append (d : ℚ → ℚ) :
    ∀ (s r : List ℚ), s ≠ [] → s.getLast? = r.head? →
      wCore d (s ++ r) = wCore d s + wCore d r
  | [], _, hne, _ => absurd rfl hne
  | [x], r, _, hj => by
      cases r with
      | nil => simp [wCore]
      | cons h t =>
          simp only [List.getLast?_singleton, List.head?_cons,
            Option.some.injEq] at hj
          subst hj
          simp [wCore]
  | x :: y :: s, r, _, hj => by
      have hgl : (x :: y :: s).getLast? = (y :: s).getLast? := by
        simp [List.getLast?_cons_cons]
      rw [hgl] at hj
      have hrec := wCore_append d (y :: s) r (List.cons_ne_nil y s) hj
      show wCore d (x :: y :: (s ++ r)) = wCore d (x :: y :: s) + wCore d r
      simp only [wCore]
      simp only [List.cons_append] at hrec
      rw [hrec]
      ring

lemma wCore_map_add (d : ℚ → ℚ) (c : ℚ) :
    ∀ (l : List ℚ), wCore d (l.map (· + c)) = wCore (fun x => d (x + c)) l
  | [] => rfl
  | [_] => rfl
  | x :: y :: rest => by
      have hrec := wCore_map_add d c (y :: rest)
      simp only [List.map_cons] at hrec ⊢
      simp only [wCore]
      rw [hrec]
      ring_nf

end GridRDF

namespace GridRDF

lemma getLast?_map_q (f : ℚ → ℚ) :
    ∀ (l : List ℚ), (l.map f).getLast? = l.getLast?.map f
  | [] => rfl
  | [_] => rfl
  | x :: y :: rest => by
      have := getLast?_map_q f (y :: rest)
      simp only [List.map_cons] at this ⊢
      rw [List.getLast?_cons_cons, List.getLast?_cons_cons]
      exact this

lemma getLast?_of_ne_nil {l : List ℚ} (h : l ≠ []) :
    l.getLast? = some (l.getLastD 0) := by
  rw [List.getLast?_eq_getLast l h, List.getLastD_eq_getLast?,
    List.getLast?_eq_getLast l h]
  rfl

lemma flatBinsFrom_mem_ge {bins : List ℚ} {md : ℚ}
    (hnn : ∀ x ∈ bins, 0 ≤ x) (hmd : 0 ≤ md) :
    ∀ (n : ℕ) (c : ℚ), ∀ y ∈ flatBinsFrom bins c md n, c ≤ y := by
  intro n
  induction n with
  | zero => intro c y hy; simp [flatBinsFrom] at hy
  | succ k ih =>
      intro c y hy
      simp only [flatBinsFrom, List.mem_append, List.mem_map] at hy
      rcases hy with ⟨b, hb, rfl⟩ | hy
      · have := hnn b hb
        linarith
      · have := ih (c + md) y hy
        linarith

lemma flatBinsFrom_sorted {bins : List ℚ} {md : ℚ}
    (hsort : bins.Sorted (· ≤ ·)) (hnn : ∀ x ∈ bins, 0 ≤ x)
    (hle : ∀ x ∈ bins, x ≤ md) (hmd : 0 ≤ md) :
    ∀ (n : ℕ) (c : ℚ), (flatBinsFrom bins c md n).Sorted (· ≤ ·) := by
  intro n
  induction n with
  | zero => intro c; simp [flatBinsFrom]
  | succ k ih =>
      intro c
      simp only [flatBinsFrom]
      rw [List.Sorted, List.pairwise_append]
      refine ⟨?_, ih (c + md), ?_⟩
      · refine List.Pairwise.map (fun x => x + c) ?_ hsort
        intro a b hab
        show a + c ≤ b + c
        linarith
      · intro x hx y hy
        obtain ⟨b, hb, rfl⟩ := List.mem_map.1 hx
        have h1 := hle b hb
        have h2 := flatBinsFrom_mem_ge hnn hmd k (c + md) y hy
        linarith

lemma flatBinsFrom_length (bins : List ℚ) (md : ℚ) :
    ∀ (n : ℕ) (c : ℚ), (flatBinsFrom bins c md n).length = n * bins.length := by
  intro n
  induction n with
  | zero => intro c; simp [flatBinsFrom]
  | succ k ih =>
      intro c
      simp only [flatBinsFrom, List.length_append, List.length_map, ih,
        Nat.succ_mul]
      omega

end GridRDF

namespace GridRDF

lemma head?_map_append (f : ℚ → ℚ) {l : List ℚ} (h : l ≠ []) (t : List ℚ) :
    ((l.map f) ++ t).head? = l.head?.map f := by
  cases l with
  | nil => exact absurd rfl h
  | cons x xs => rfl

lemma wCore_flat {bins : List ℚ} {md : ℚ}
    (hne : bins ≠ [])
    (hnn : ∀ x ∈ bins, 0 ≤ x) (hle : ∀ x ∈ bins, x ≤ md)
    (hhead : bins.head? = some 0)
    (hlast : bins.getLastD 0 = md)
    (hdrop : ∀ x ∈ bins.dropLast, x < md) :
    ∀ (aR bR : List (List ℚ)) (c : ℚ),
      aR.length = bR.length →
      (∀ r ∈ aR, r.length = bins.length ∧ r.sum = 1) →
      (∀ r ∈ bR, r.length = bins.length ∧ r.sum = 1) →
      wCore (fun x => cdfAt (flatBinsFrom bins c md aR.length) aR.join x
          - cdfAt (flatBinsFrom bins c md aR.length) bR.join x)
        (flatBinsFrom bins c md aR.length)
      = (List.zipWith (fun ra rb =>
          wCore (fun x => cdfAt bins ra x - cdfAt bins rb x) bins) aR bR).sum := by
  have hmd : 0 ≤ md := by
    cases bins with
    | nil => exact absurd rfl hne
    | cons b0 btl =>
        have h0 : b0 = 0 := by simpa using hhead
        have hb0 := hle b0 (List.mem_cons_self b0 btl)
        rw [h0] at hb0
        exact hb0
  intro aR
  induction aR with
  | nil =>
      intro bR c hlen _ _
      simp [flatBinsFrom, wCore]
  | cons ra aR' ih =>
      intro bR c hlen ha hb
      cases bR with
      | nil => simp at hlen
      | cons rb bR' =>
          obtain ⟨hra, hras⟩ := ha ra (List.mem_cons_self ra aR')
          obtain ⟨hrb, hrbs⟩ := hb rb (List.mem_cons_self rb bR')
          have ha' : ∀ r ∈ aR', r.length = bins.length ∧ r.sum = 1 :=
            fun r hr => ha r (List.mem_cons_of_mem _ hr)
          have hb' : ∀ r ∈ bR', r.length = bins.length ∧ r.sum = 1 :=
            fun r hr => hb r (List.mem_cons_of_mem _ hr)
          have hlen' : aR'.length = bR'.length := by simpa using hlen
          have hsegra : (bins.map (· + c)).length = ra.length := by
            rw [List.length_map, hra]
          have hsegrb : (bins.map (· + c)).length = rb.length := by
            rw [List.length_map, hrb]
          have hsegle : ∀ y ∈ bins.map (· + c), y ≤ c + md := by
            intro y hy
            obtain ⟨b, hbmem, rfl⟩ := List.mem_map.1 hy
            have := hle b hbmem
            linarith
          have hshell :
              wCore (fun x =>
                  cdfAt (bins.map (· + c) ++ flatBinsFrom bins (c + md) md
                      aR'.length) (ra ++ aR'.join) x
                    - cdfAt (bins.map (· + c) ++ flatBinsFrom bins (c + md) md
                        aR'.length) (rb ++ bR'.join) x)
                (bins.map (· + c))
              = wCore (fun x => cdfAt bins ra x - cdfAt bins rb x) bins := by
            rw [wCore_map_add]
            apply wCore_congr
            intro x hx
            have hxlt : x < md := hdrop x hx
            rw [cdfAt_append hsegra, cdfAt_append hsegrb, cdfAt_map_add,
              cdfAt_map_add]
            have hgt0A : cdfAt (flatBinsFrom bins (c + md) md aR'.length)
                aR'.join (x + c) = 0 := by
              apply cdfAt_all_gt
              intro a haa
              have := flatBinsFrom_mem_ge hnn hmd aR'.length (c + md) a haa
              linarith
            have hgt0B : cdfAt (flatBinsFrom bins (c + md) md aR'.length)
                bR'.join (x + c) = 0 := by
              apply cdfAt_all_gt
              intro a haa
              have := flatBinsFrom_mem_ge hnn hmd aR'.length (c + md) a haa
              linarith
            rw [hgt0A, hgt0B]
            ring
          show wCore (fun x =>
              cdfAt (bins.map (· + c) ++ flatBinsFrom bins (c + md) md
                  aR'.length) (ra ++ aR'.join) x
                - cdfAt (bins.map (· + c) ++ flatBinsFrom bins (c + md) md
                    aR'.length) (rb ++ bR'.join) x)
            (bins.map (· + c) ++ flatBinsFrom bins (c + md) md aR'.length)
            = (List.zipWith (fun ra rb =>
                wCore (fun x => cdfAt bins ra x - cdfAt bins rb x) bins)
                (ra :: aR') (rb :: bR')).sum
          by_cases haR' : aR' = []
          · have hbR' : bR' = [] := by
              rw [haR'] at hlen'
              exact (List.length_eq_zero.mp hlen'.symm)
              -- placeholder
            subst hbR'
            subst haR'
            simp only [List.length_nil, flatBinsFrom, List.append_nil,
              List.join] at hshell ⊢
            rw [hshell]
            simp [List.zipWith, wCore]
          · have hn0 : aR'.length ≠ 0 := fun hc => haR' (List.length_eq_zero.mp hc)
            have hrestne : flatBinsFrom bins (c + md) md aR'.length ≠ [] := by
              cases hcase : aR'.length with
              | zero => exact absurd hcase hn0
              | succ k =>
                  simp only [flatBinsFrom]
                  simp [hne]
            have hsegne : bins.map (· + c) ≠ [] := by simp [hne]
            have hjunction : (bins.map (· + c)).getLast?
                = (flatBinsFrom bins (c + md) md aR'.length).head? := by
              rw [getLast?_map_q, getLast?_of_ne_nil hne, hlast]
              cases hcase : aR'.length with
              | zero => exact absurd hcase hn0
              | succ k =>
                  simp only [flatBinsFrom]
                  rw [head?_map_append _ hne, hhead]
                  show some (md + c) = some (0 + (c + md))
                  congr 1
                  ring
            rw [wCore_append _ _ _ hsegne hjunction, hshell]
            have hterm2 :
                wCore (fun x =>
                    cdfAt (bins.map (· + c) ++ flatBinsFrom bins (c + md) md
                        aR'.length) (ra ++ aR'.join) x
                      - cdfAt (bins.map (· + c) ++ flatBinsFrom bins
                          (c + md) md aR'.length) (rb ++ bR'.join) x)
                  (flatBinsFrom bins (c + md) md aR'.length)
                = (List.zipWith (fun ra rb =>
                    wCore (fun x => cdfAt bins ra x - cdfAt bins rb x) bins)
                    aR' bR').sum := by
              have hcongr : wCore (fun x =>
                    cdfAt (bins.map (· + c) ++ flatBinsFrom bins (c + md) md
                        aR'.length) (ra ++ aR'.join) x
                      - cdfAt (bins.map (· + c) ++ flatBinsFrom bins (c + md)
                          md aR'.length) (rb ++ bR'.join) x)
                  (flatBinsFrom bins (c + md) md aR'.length)
                  = wCore (fun x =>
                      cdfAt (flatBinsFrom bins (c + md) md aR'.length)
                          aR'.join x
                        - cdfAt (flatBinsFrom bins (c + md) md aR'.length)
                            bR'.join x)
                    (flatBinsFrom bins (c + md) md aR'.length) := by
                apply wCore_congr
                intro x hx
                have hxmem : x ∈ flatBinsFrom bins (c + md) md aR'.length :=
                  List.dropLast_subset _ hx
                have hxge : c + md ≤ x :=
                  flatBinsFrom_mem_ge hnn hmd aR'.length (c + md) x hxmem
                have hsegleX : ∀ a ∈ bins.map (· + c), a ≤ x := by
                  intro a haa
                  have := hsegle a haa
                  linarith
                rw [cdfAt_append hsegra, cdfAt_append hsegrb,
                  cdfAt_all_le hsegleX hsegra, cdfAt_all_le hsegleX hsegrb,
                  hras, hrbs]
                ring
              rw [hcongr]
              exact ih bR' (c + md) hlen' ha' hb'
            rw [hterm2]
            simp [List.zipWith]

end GridRDF

namespace GridRDF

lemma dropLast_map_q {α β : Type} (f : α → β) :
    ∀ (l : List α), (l.map f).dropLast = l.dropLast.map f
  | [] => rfl
  | [_] => rfl
  | x :: y :: rest => by
      have ih := dropLast_map_q f (y :: rest)
      simp only [List.map_cons] at ih ⊢
      simp only [List.dropLast_cons₂, List.map_cons]
      rw [ih]

lemma linspace_length (lo hi : ℚ) (n : ℕ) : (linspace lo hi n).length = n := by
  simp [linspace]

lemma linspace_sorted {md : ℚ} (hmd : 0 < md) {nb : ℕ} (hnb : 2 ≤ nb) :
    (linspace 0 md nb).Sorted (· ≤ ·) := by
  have ht : (0 : ℚ) < (nb : ℚ) - 1 := by
    have h2 : (2 : ℚ) ≤ (nb : ℚ) := by exact_mod_cast hnb
    linarith
  unfold linspace
  rw [List.Sorted, List.pairwise_map]
  apply List.Pairwise.imp ?_ (List.pairwise_lt_range nb)
  intro i j hij
  have hc : (i : ℚ) ≤ (j : ℚ) := by exact_mod_cast le_of_lt hij
  show 0 + (md - 0) * i / ((nb : ℚ) - 1) ≤ 0 + (md - 0) * j / ((nb : ℚ) - 1)
  have h1 : (md - 0) * i ≤ (md - 0) * j := by nlinarith
  have h2 := div_le_div_of_nonneg_right h1 (le_of_lt ht)
  linarith

lemma linspace_nonneg {md : ℚ} (hmd : 0 < md) {nb : ℕ} (hnb : 2 ≤ nb) :
    ∀ x ∈ linspace 0 md nb, 0 ≤ x := by
  have ht : (0 : ℚ) < (nb : ℚ) - 1 := by
    have h2 : (2 : ℚ) ≤ (nb : ℚ) := by exact_mod_cast hnb
    linarith
  intro x hx
  obtain ⟨i, _, rfl⟩ := List.mem_map.1 hx
  have h1 : (0 : ℚ) ≤ (i : ℚ) := Nat.cast_nonneg i
  have h3 : 0 ≤ (md - 0) * i / ((nb : ℚ) - 1) :=
    div_nonneg (by nlinarith) (le_of_lt ht)
  show (0 : ℚ) ≤ 0 + (md - 0) * i / ((nb : ℚ) - 1)
  linarith

lemma linspace_le {md : ℚ} (hmd : 0 < md) {nb : ℕ} (hnb : 2 ≤ nb) :
    ∀ x ∈ linspace 0 md nb, x ≤ md := by
  have ht : (0 : ℚ) < (nb : ℚ) - 1 := by
    have h2 : (2 : ℚ) ≤ (nb : ℚ) := by exact_mod_cast hnb
    linarith
  intro x hx
  obtain ⟨i, hi, rfl⟩ := List.mem_map.1 hx
  have hcast : (i : ℚ) ≤ (nb : ℚ) - 1 := by
    have h1 : (i : ℚ) + 1 ≤ (nb : ℚ) := by
      exact_mod_cast Nat.succ_le_of_lt (List.mem_range.mp hi)
    linarith
  show 0 + (md - 0) * i / ((nb : ℚ) - 1) ≤ md
  have haux : (md - 0) * i / ((nb : ℚ) - 1) ≤ md := by
    rw [div_le_iff ht]
    nlinarith
  linarith

lemma linspace_head (md : ℚ) {nb : ℕ} (hnb : 2 ≤ nb) :
    (linspace 0 md nb).head? = some 0 := by
  obtain ⟨m, rfl⟩ : ∃ m, nb = m + 2 := ⟨nb - 2, by omega⟩
  unfold linspace
  rw [show m + 2 = (m + 1) + 1 from rfl, List.range_succ_eq_map]
  simp only [List.map_cons, List.head?_cons]
  congr 1
  norm_num

lemma linspace_last (md : ℚ) {nb : ℕ} (hnb : 2 ≤ nb) :
    (linspace 0 md nb).getLastD 0 = md := by
  obtain ⟨m, rfl⟩ : ∃ m, nb = m + 2 := ⟨nb - 2, by omega⟩
  unfold linspace
  rw [show m + 2 = (m + 1) + 1 from rfl, List.range_succ, List.map_append,
    List.map_cons, List.map_nil, List.getLastD_eq_getLast?,
    List.getLast?_concat, Option.getD_some]
  have hne2 : ((m : ℚ) + 1) ≠ 0 := by positivity
  push_cast
  have hden : ((m : ℚ) + 1 + 1 - 1) = (m : ℚ) + 1 := by ring
  rw [hden, mul_div_assoc, div_self hne2]
  ring

lemma linspace_dropLast_lt {md : ℚ} (hmd : 0 < md) {nb : ℕ} (hnb : 2 ≤ nb) :
    ∀ x ∈ (linspace 0 md nb).dropLast, x < md := by
  obtain ⟨m, rfl⟩ : ∃ m, nb = m + 2 := ⟨nb - 2, by omega⟩
  have ht : (0 : ℚ) < (((m + 2 : ℕ) : ℚ)) - 1 := by push_cast; linarith
  intro x hx
  unfold linspace at hx
  rw [dropLast_map_q, show m + 2 = (m + 1) + 1 from rfl, List.range_succ,
    List.dropLast_concat] at hx
  obtain ⟨i, hi, rfl⟩ := List.mem_map.1 hx
  have hilt : i < m + 1 := List.mem_range.mp hi
  have hcast : (i : ℚ) < (((m + 2 : ℕ) : ℚ)) - 1 := by
    push_cast
    have h1 : (i : ℚ) + 1 ≤ (m : ℚ) + 1 := by exact_mod_cast hilt
    linarith
  show 0 + (md - 0) * i / ((((m + 2 : ℕ) : ℚ)) - 1) < md
  have haux : (md - 0) * i / ((((m + 2 : ℕ) : ℚ)) - 1) < md := by
    rw [div_lt_iff ht]
    nlinarith
  linarith

lemma linspace_ne_nil (lo hi : ℚ) {nb : ℕ} (hnb : 2 ≤ nb) :
    linspace lo hi nb ≠ [] := by
  intro hc
  have := congrArg List.length hc
  rw [linspace_length] at this
  simp at this
  omega

end GridRDF

namespace GridRDF

lemma flatBinsFrom_eq (bins : List ℚ) (s : ℚ) :
    ∀ (n : ℕ) (c : ℚ),
      ((List.range n).map fun j : ℕ =>
          bins.map fun x => x + (c + (j : ℚ) * s)).join
        = flatBinsFrom bins c s n := by
  intro n
  induction n with
  | zero => intro c; simp [flatBinsFrom]
  | succ k ih =>
      intro c
      rw [List.range_succ_eq_map]
      simp only [List.map_cons, List.map_map, List.flatten_cons]
      show _ ++ _ = flatBinsFrom bins c s (k + 1)
      congr 1
      · apply List.map_congr_left
        intro x _
        push_cast
        ring
      · rw [← ih (c + s)]
        congr 1
        apply List.map_congr_left
        intro j _
        apply List.map_congr_left
        intro x _
        push_cast
        ring

lemma flatBins_eq (bins : List ℚ) {md : ℚ} (hlast : bins.getLastD 0 = md)
    (n : ℕ) : flatBins bins n = flatBinsFrom bins 0 md n := by
  unfold flatBins
  rw [← flatBinsFrom_eq bins md n 0]
  congr 1
  apply List.map_congr_left
  intro j _
  apply List.map_congr_left
  intro x _
  rw [hlast]
  ring

lemma join_sum_ones {rows : List (List ℚ)} (h : ∀ r ∈ rows, r.sum = 1) :
    rows.join.sum = rows.length := by
  induction rows with
  | nil => simp
  | cons r rs ih =>
      simp only [List.flatten_cons, List.sum_append, List.length_cons,
        h r (List.mem_cons_self r rs),
        ih fun t ht => h t (List.mem_cons_of_mem _ ht)]
      push_cast
      ring

lemma zipWith_congr_mem {α β γ : Type} {f g : α → β → γ} :
    ∀ {l1 : List α} {l2 : List β},
      (∀ x ∈ l1, ∀ y ∈ l2, f x y = g x y) →
      List.zipWith f l1 l2 = List.zipWith g l1 l2
  | [], l2, _ => by simp
  | x :: xs, [], _ => by simp
  | x :: xs, y :: ys, h => by
      simp only [List.zipWith_cons_cons]
      rw [h x (List.mem_cons_self x xs) y (List.mem_cons_self y ys),
        zipWith_congr_mem fun a ha b hb =>
          h a (List.mem_cons_of_mem _ ha) b (List.mem_cons_of_mem _ hb)]

end GridRDF

namespace GridRDF

lemma fast_eq_orig {a b : List (List ℚ)} {md : ℚ} {nb : ℕ}
    (hlen : a.length = b.length) (hane : a ≠ [])
    (hraL : ∀ r ∈ a, r.length = nb) (hrbL : ∀ r ∈ b, r.length = nb)
    (hsa : ∀ r ∈ a, r.sum = 1) (hsb : ∀ r ∈ b, r.sum = 1)
    (hnb : 2 ≤ nb) (hmd : 0 < md) :
    fastMethodDense a b md = origMethodDense a b md := by
  have hhd : (a.headD []).length = nb := by
    cases a with
    | nil => exact absurd rfl hane
    | cons r rs => exact hraL r (List.mem_cons_self r rs)
  have hsort := linspace_sorted hmd hnb
  have hnn := linspace_nonneg hmd hnb
  have hble := linspace_le hmd hnb
  have hhead := linspace_head md hnb
  have hlast := linspace_last md hnb
  have hdrop := linspace_dropLast_lt hmd hnb
  have hbne : linspace 0 md nb ≠ [] := linspace_ne_nil 0 md hnb
  have hblen : (linspace 0 md nb).length = nb := linspace_length 0 md nb
  have hnpos : (0 : ℚ) < a.length := by
    cases a with
    | nil => exact absurd rfl hane
    | cons r rs => simp [Nat.cast_add]; positivity
  have hsumA : a.join.sum = (a.length : ℚ) := join_sum_ones hsa
  have hsumB : b.join.sum = (a.length : ℚ) := by
    rw [join_sum_ones hsb, hlen]
  unfold fastMethodDense origMethodDense
  rw [hhd]
  rw [flatBins_eq _ hlast]
  rw [wasserstein_sorted
    (flatBinsFrom_sorted hsort hnn hble (le_of_lt hmd) a.length 0) a.join
    b.join]
  rw [hsumA, hsumB]
  have hfun : (fun x =>
      cdfAt (flatBinsFrom (linspace 0 md nb) 0 md a.length) a.join x
          / (a.length : ℚ)
        - cdfAt (flatBinsFrom (linspace 0 md nb) 0 md a.length) b.join x
          / (a.length : ℚ))
      = fun x => (1 / (a.length : ℚ))
          * (cdfAt (flatBinsFrom (linspace 0 md nb) 0 md a.length) a.join x
            - cdfAt (flatBinsFrom (linspace 0 md nb) 0 md a.length)
                b.join x) := by
    funext x
    ring
  rw [hfun, wCore_smul]
  have hrowsA : ∀ r ∈ a, r.length = (linspace 0 md nb).length ∧ r.sum = 1 :=
    fun r hr => ⟨by rw [hblen]; exact hraL r hr, hsa r hr⟩
  have hrowsB : ∀ r ∈ b, r.length = (linspace 0 md nb).length ∧ r.sum = 1 :=
    fun r hr => ⟨by rw [hblen]; exact hrbL r hr, hsb r hr⟩
  rw [wCore_flat hbne hnn hble hhead hlast hdrop a b 0 hlen hrowsA hrowsB]
  have horig : List.zipWith
      (fun ra rb => wasserstein_distance (linspace 0 md nb)
        (linspace 0 md nb) ra rb) a b
      = List.zipWith (fun ra rb =>
          wCore (fun x => cdfAt (linspace 0 md nb) ra x
            - cdfAt (linspace 0 md nb) rb x) (linspace 0 md nb)) a b := by
    apply zipWith_congr_mem
    intro ra hra rb hrb
    rw [wasserstein_sorted hsort ra rb, hsa ra hra, hsb rb hrb]
    simp only [div_one]
  rw [horig]
  unfold npMean
  rw [List.length_zipWith, ← hlen, min_self]
  rw [abs_of_pos (by positivity : (0 : ℚ) < 1 / (a.length : ℚ))]
  ring

end GridRDF

namespace GridRDF

/-- Amended claim C6.  For every pair of same-shape 2D dense multi-shell
histograms in which every shell individually sums to 1, the "fast" flattened
method of `rdf_emd_similarity` returns exactly the value of the "orig"
per-shell loop method; and when some shell of the first input fails the
normalisation check (the first input's check runs first, then the second
input's), the "fast" call fails with the validation (normalisation) error —
no automatic fallback to "orig" occurs, the caller must request "orig"
explicitly. -/
theorem C6_fast_refines_orig :
    (∀ (a b : List (List ℚ)) (md : ℚ) (nb : ℕ),
        a.length = b.length → a ≠ [] →
        (∀ r ∈ a, r.length = nb) → (∀ r ∈ b, r.length = nb) →
        (∀ r ∈ a, r.sum = 1) → (∀ r ∈ b, r.sum = 1) →
        2 ≤ nb → 0 < md →
        rdf_emd_similarity (.dense a) (.dense b) md "fast"
          = .ok (some (origMethodDense a b md)))
      ∧ (∀ (a b : List (List ℚ)) (md : ℚ),
          (RdfArr.dense a).shape = (RdfArr.dense b).shape →
          ((RdfArr.dense a).shellSums.all fun s => npIsClose s 1) = false →
          rdf_emd_similarity (.dense a) (.dense b) md "fast"
            = .error .normalizationAssert)
      ∧ (∀ (a b : List (List ℚ)) (md : ℚ),
          (RdfArr.dense a).shape = (RdfArr.dense b).shape →
          ((RdfArr.dense a).shellSums.all fun s => npIsClose s 1) = true →
          ((RdfArr.dense b).shellSums.all fun s => npIsClose s 1) = false →
          rdf_emd_similarity (.dense a) (.dense b) md "fast"
            = .error .normalizationAssert) := by
  constructor
  · intro a b md nb hlen hane hraL hrbL hsa hsb hnb hmd
    have hbne : b ≠ [] := by
      intro hc
      rw [hc] at hlen
      simp only [List.length_nil] at hlen
      exact hane (List.length_eq_zero.mp hlen)
    have hhda : (a.headD []).length = nb := by
      cases a with
      | nil => exact absurd rfl hane
      | cons r rs => exact hraL r (List.mem_cons_self r rs)
    have hhdb : (b.headD []).length = nb := by
      cases b with
      | nil => exact absurd rfl hbne
      | cons r rs => exact hrbL r (List.mem_cons_self r rs)
    have hshape : (RdfArr.dense a).shape = (RdfArr.dense b).shape := by
      show [a.length, (a.headD []).length] = [b.length, (b.headD []).length]
      rw [hlen, hhda, hhdb]
    have hsumsA :
        ((RdfArr.dense a).shellSums.all fun s => npIsClose s 1) = true := by
      rw [List.all_eq_true]
      intro s hs
      obtain ⟨r, hr, rfl⟩ := List.mem_map.1 hs
      rw [hsa r hr]
      norm_num [npIsClose]
    have hsumsB :
        ((RdfArr.dense b).shellSums.all fun s => npIsClose s 1) = true := by
      rw [List.all_eq_true]
      intro s hs
      obtain ⟨r, hr, rfl⟩ := List.mem_map.1 hs
      rw [hsb r hr]
      norm_num [npIsClose]
    unfold rdf_emd_similarity
    rw [if_neg (fun hc => hc hshape), if_pos (by simp [RdfArr.shape]),
      if_neg (by decide : ¬("fast" = "orig")), if_pos rfl, if_pos hsumsA,
      if_pos hsumsB]
    show Except.ok (some (fastMethodDense a b md))
      = Except.ok (some (origMethodDense a b md))
    rw [fast_eq_orig hlen hane hraL hrbL hsa hsb hnb hmd]
  refine ⟨?_, ?_⟩
  · intro a b md hshape hfail
    unfold rdf_emd_similarity
    rw [if_neg (fun hc => hc hshape), if_pos (by simp [RdfArr.shape]),
      if_neg (by decide : ¬("fast" = "orig")), if_pos rfl,
      if_neg (by simp [hfail])]
  · intro a b md hshape hok hfail
    unfold rdf_emd_similarity
    rw [if_neg (fun hc => hc hshape), if_pos (by simp [RdfArr.shape]),
      if_neg (by decide : ¬("fast" = "orig")), if_pos rfl, if_pos hok,
      if_neg (by simp [hfail])]

/-- Counterexample for claim C6 as stated: on a shell that does not sum
to 1, the "fast" method raises the validation error and does NOT fall back
to the per-shell loop method — the result is the error, not the "orig"
value. -/
theorem C6_counterexample :
    rdf_emd_similarity (.dense [[(1 : ℚ) / 2, 0]]) (.dense [[(1 : ℚ) / 2, 0]])
        10 "fast" = .error .normalizationAssert
      ∧ rdf_emd_similarity (.dense [[(1 : ℚ) / 2, 0]])
            (.dense [[(1 : ℚ) / 2, 0]]) 10 "fast"
          ≠ .ok (some (origMethodDense [[(1 : ℚ) / 2, 0]]
              [[(1 : ℚ) / 2, 0]] 10)) := by
  have h1 : rdf_emd_similarity (.dense [[(1 : ℚ) / 2, 0]])
      (.dense [[(1 : ℚ) / 2, 0]]) 10 "fast"
      = .error .normalizationAssert := by
    unfold rdf_emd_similarity
    rw [if_neg (by simp), if_pos (by simp [RdfArr.shape]),
      if_neg (by decide : ¬("fast" = "orig")), if_pos rfl,
      if_neg ?hn]
    case hn =>
      have habs : |(1 : ℚ) / 2| = 1 / 2 := by
        rw [abs_of_pos]
        norm_num
      norm_num [RdfArr.shellSums, npIsClose, habs]
  refine ⟨h1, ?_⟩
  rw [h1]
  simp

/-- Witness for the amended C6: two concrete 2-shell, 2-bin, per-shell
normalised histograms on which "fast" returns exactly the "orig" value. -/
theorem C6_witness :
    rdf_emd_similarity (.dense [[(1 : ℚ), 0], [0, 1]])
        (.dense [[(0 : ℚ), 1], [1, 0]]) 10 "fast"
      = .ok (some (origMethodDense [[(1 : ℚ), 0], [0, 1]]
          [[(0 : ℚ), 1], [1, 0]] 10)) :=
  C6_fast_refines_orig.1 [[(1 : ℚ), 0], [0, 1]] [[(0 : ℚ), 1], [1, 0]] 10 2
    (by decide) (by simp) (by decide) (by decide)
    (by norm_num) (by norm_num) (by decide) (by norm_num)

end GridRDF
